import Mathlib

/-!
Verification development for the spynal synchrony/coupling engine and the
neural_info reshaping/ANOVA helpers.

The ndarray reshaping helpers and the anova1 zero-variance convention are
embedded directly from neural_info.py.  The synchrony/coupling engine itself
(sync.py) is not part of the available sources, so its behaviour is modelled
from the specification; every such definition carries a doc comment starting
with "Modelled from the spec:".
-/

set_option maxRecDepth 8192
set_option maxHeartbeats 1000000

/-! ### Multi-dimensional index model for ndarrays

An ndarray with shape `s : List Nat` is modelled as a function from the
multi-index type `MIdx s` to its element type.  This captures exactly the
logical (layout-independent) content of a numpy array.
-/

/-- Multi-index type of an ndarray of shape `s`: one bounded coordinate per axis. -/
def MIdx : List ℕ → Type
  | [] => Unit
  | n :: s => Fin n × MIdx s

/-- Flat position of a multi-index in Fortran order (first axis fastest),
as used by numpy reshape with order equal to F. -/
def toF : (s : List ℕ) → MIdx s → Fin s.prod
  | [], _ => ⟨0, by simp⟩
  | n :: s, m =>
    ⟨m.1.val + n * (toF s m.2).val, by
      have h1 : (toF s m.2).val + 1 ≤ s.prod := (toF s m.2).isLt
      have h2 : m.1.val + n * (toF s m.2).val < n * ((toF s m.2).val + 1) := by
        have hi := m.1.isLt
        nlinarith
      calc m.1.val + n * (toF s m.2).val < n * ((toF s m.2).val + 1) := h2
        _ ≤ n * s.prod := Nat.mul_le_mul_left n h1
        _ = (n :: s).prod := (List.prod_cons).symm⟩

/-- Multi-index of a flat Fortran-order position (inverse of `toF`). -/
def ofF : (s : List ℕ) → Fin s.prod → MIdx s
  | [], _ => ()
  | n :: s, f =>
    have hf : f.val < n * s.prod := lt_of_lt_of_eq f.isLt List.prod_cons
    have hn : 0 < n := by
      rcases Nat.eq_zero_or_pos n with h | h
      · subst h; simp at hf
      · exact h
    (⟨f.val % n, Nat.mod_lt _ hn⟩,
     ofF s ⟨f.val / n, by
       have hf2 : f.val < s.prod * n := by
         rw [Nat.mul_comm]; exact hf
       exact (Nat.div_lt_iff_lt_mul hn).mpr hf2⟩)

/-- Flat position of a multi-index in C order (last axis fastest),
as used by numpy reshape with order equal to C. -/
def toC : (s : List ℕ) → MIdx s → Fin s.prod
  | [], _ => ⟨0, by simp⟩
  | n :: s, m =>
    ⟨m.1.val * s.prod + (toC s m.2).val, by
      have h1 := (toC s m.2).isLt
      have h2 : m.1.val + 1 ≤ n := m.1.isLt
      have h3 : m.1.val * s.prod + (toC s m.2).val < (m.1.val + 1) * s.prod := by
        nlinarith
      calc m.1.val * s.prod + (toC s m.2).val < (m.1.val + 1) * s.prod := h3
        _ ≤ n * s.prod := Nat.mul_le_mul_right s.prod h2
        _ = (n :: s).prod := (List.prod_cons).symm⟩

/-- Multi-index of a flat C-order position (inverse of `toC`). -/
def ofC : (s : List ℕ) → Fin s.prod → MIdx s
  | [], _ => ()
  | n :: s, f =>
    have hf : f.val < n * s.prod := lt_of_lt_of_eq f.isLt List.prod_cons
    have hp : 0 < s.prod := by
      rcases Nat.eq_zero_or_pos s.prod with h | h
      · rw [h, Nat.mul_zero] at hf; exact absurd hf (Nat.not_lt_zero _)
      · exact h
    (⟨f.val / s.prod, by
       have hf2 : f.val < n * s.prod := hf
       rw [Nat.div_lt_iff_lt_mul hp]
       rwa [Nat.mul_comm n s.prod] at hf2⟩,
     ofC s ⟨f.val % s.prod, Nat.mod_lt _ hp⟩)

/-- Insert the coordinate `i` at axis position `a` into a multi-index over the
remaining axes; this is the index map underlying numpy moveaxis. -/
def insertMIdx : (s : List ℕ) → (a : ℕ) → (h : a < s.length) →
    Fin (s.get ⟨a, h⟩) → MIdx (s.eraseIdx a) → MIdx s
  | _ :: _, 0, _, i, m => (i, m)
  | _ :: s, a + 1, h, i, m =>
    (m.1, insertMIdx s a (Nat.lt_of_succ_lt_succ h) i m.2)

/-- Extract the coordinate at axis position `a` from a multi-index (inverse of
`insertMIdx`). -/
def extractMIdx : (s : List ℕ) → (a : ℕ) → (h : a < s.length) →
    MIdx s → Fin (s.get ⟨a, h⟩) × MIdx (s.eraseIdx a)
  | _ :: _, 0, _, m => m
  | _ :: s, a + 1, h, m =>
    ((extractMIdx s a (Nat.lt_of_succ_lt_succ h) m.2).1,
     (m.1, (extractMIdx s a (Nat.lt_of_succ_lt_succ h) m.2).2))

/-- Semantics of np.moveaxis(data, axis, 0): the axis `a` becomes the leading
axis, the remaining axes keep their relative order. -/
def moveaxisTo0 {α : Type} (s : List ℕ) (a : ℕ) (h : a < s.length) (x : MIdx s → α) :
    MIdx (s.get ⟨a, h⟩ :: s.eraseIdx a) → α :=
  fun m => x (insertMIdx s a h m.1 m.2)

/-- Semantics of np.moveaxis(data, 0, axis) at the shape of the round trip:
the leading axis is put back at position `a`. -/
def moveaxisFrom0 {α : Type} (s : List ℕ) (a : ℕ) (h : a < s.length)
    (y : MIdx (s.get ⟨a, h⟩ :: s.eraseIdx a) → α) : MIdx s → α :=
  fun m => y ((extractMIdx s a h m).1, (extractMIdx s a h m).2)

/-- Semantics of np.reshape(x, t, order=F): the Fortran-order flattening of the
result equals the Fortran-order flattening of the source. -/
def reshapeF {α : Type} (s t : List ℕ) (hp : t.prod = s.prod) (x : MIdx s → α) :
    MIdx t → α :=
  fun m => x (ofF s (Fin.cast hp (toF t m)))

/-- Semantics of np.reshape(x, t, order=C): the C-order flattening of the
result equals the C-order flattening of the source. -/
def reshapeC {α : Type} (s t : List ℕ) (hp : t.prod = s.prod) (x : MIdx s → α) :
    MIdx t → α :=
  fun m => x (ofC s (Fin.cast hp (toC t m)))

/-- Embedding of the branch of neural_info._reshape_data that is actually
executed (see the guard theorem for C10): move the observation axis to the
front, then reshape to a 2-d (n_obs, n_series) array in Fortran order.  For
rank 1 and 2 inputs the source skips the reshape call; at those ranks the
reshape step below is the identity on the data (rank 1 corresponds to the
expansion of a vector to a one-column matrix), so the composition is the same. -/
def reshape_data {α : Type} (s : List ℕ) (a : ℕ) (h : a < s.length) (x : MIdx s → α) :
    MIdx [s.get ⟨a, h⟩, (s.eraseIdx a).prod] → α :=
  reshapeF (s.get ⟨a, h⟩ :: s.eraseIdx a) [s.get ⟨a, h⟩, (s.eraseIdx a).prod]
    (by simp) (moveaxisTo0 s a h x)

/-- Embedding of neural_info._unreshape_data at the round-trip shape (leading
length equal to the original observation-axis length): reshape the 2-d matrix
back to the moved shape in Fortran order, then move axis 0 back to `a`. -/
def unreshape_data {α : Type} (s : List ℕ) (a : ℕ) (h : a < s.length)
    (x : MIdx [s.get ⟨a, h⟩, (s.eraseIdx a).prod] → α) : MIdx s → α :=
  moveaxisFrom0 s a h
    (reshapeF [s.get ⟨a, h⟩, (s.eraseIdx a).prod] (s.get ⟨a, h⟩ :: s.eraseIdx a)
      (by simp) x)

/-- Python bitwise complement of a bool: True is the int 1 and False the int 0,
so the result is -2 or -1, never 0. -/
def pyBitNot (b : Bool) : Int := if b then -2 else -1

/-- Python truthiness of an int: nonzero is truthy. -/
def pyTruthy (i : Int) : Bool := decide (i ≠ 0)

/-- Split the last coordinate off a multi-index over a shape with an appended
last axis. -/
def splitLastMIdx : (t : List ℕ) → (n : ℕ) → MIdx (t ++ [n]) → MIdx t × Fin n
  | [], _, m => ((), m.1)
  | _ :: t, n, m =>
    ((m.1, (splitLastMIdx t n m.2).1), (splitLastMIdx t n m.2).2)

/-- Semantics of np.moveaxis(data, axis, ndim-1): the axis `a` becomes the last
axis, the remaining axes keep their relative order. -/
def moveaxisToLast {α : Type} (s : List ℕ) (a : ℕ) (h : a < s.length) (x : MIdx s → α) :
    MIdx (s.eraseIdx a ++ [s.get ⟨a, h⟩]) → α :=
  fun m => x (insertMIdx s a h (splitLastMIdx _ _ m).2 (splitLastMIdx _ _ m).1)

/-- Transpose of a 2-d array. -/
def transposeMat {α : Type} {p q : ℕ} (x : MIdx [p, q] → α) : MIdx [q, p] → α :=
  fun m => x (m.2.1, (m.1, ()))

/-- Embedding of the dead c-contiguous branch of neural_info._reshape_data:
move the observation axis to the end, reshape to (n_series, n_obs) in C order,
then transpose. -/
def reshape_data_contig {α : Type} (s : List ℕ) (a : ℕ) (h : a < s.length)
    (x : MIdx s → α) : MIdx [s.get ⟨a, h⟩, (s.eraseIdx a).prod] → α :=
  transposeMat
    (reshapeC (s.eraseIdx a ++ [s.get ⟨a, h⟩]) [(s.eraseIdx a).prod, s.get ⟨a, h⟩]
      (by simp [List.prod_append, Nat.mul_comm]) (moveaxisToLast s a h x))

/-- Embedding of neural_info._reshape_data including its contiguity guard:
the source tests the Python expression tilde data.flags.c_contiguous, whose
value is the int -2 or -1, both truthy. -/
def reshape_data_full {α : Type} (s : List ℕ) (a : ℕ) (h : a < s.length)
    (c_contig : Bool) (x : MIdx s → α) : MIdx [s.get ⟨a, h⟩, (s.eraseIdx a).prod] → α :=
  if pyTruthy (pyBitNot c_contig) then reshape_data s a h x
  else reshape_data_contig s a h x

/-! ### anova1 core from neural_info.py

The zero-variance convention of `anova1` is embedded for a single data series
over exact rationals: group labels `X`, data `y`, with the grand mean taken as
the mean of observations (the default gm_method). -/

/-- Grand mean across all observations, gm_method mean_of_obs. -/
def grandMeanObs {n : ℕ} (y : Fin n → ℚ) : ℚ := (∑ k, y k) / (n : ℚ)

/-- Total sum of squares SS_total. -/
def ssTotal {n : ℕ} (y : Fin n → ℚ) : ℚ := ∑ k, (y k - grandMeanObs y) ^ 2

/-- Set of groups (levels) found in the label list, np.unique(X). -/
def groupSet {n : ℕ} (X : Fin n → ℤ) : Finset ℤ := Finset.image X Finset.univ

/-- Number of observations in a group. -/
def groupSize {n : ℕ} (X : Fin n → ℤ) (g : ℤ) : ℕ :=
  (Finset.univ.filter (fun k => X k = g)).card

/-- Mean of the observations in a group. -/
def groupMean {n : ℕ} (X : Fin n → ℤ) (y : Fin n → ℚ) (g : ℤ) : ℚ :=
  (∑ k in Finset.univ.filter (fun k => X k = g), y k) / (groupSize X g : ℚ)

/-- Groups sum of squares SS_groups. -/
def ssGroups {n : ℕ} (X : Fin n → ℤ) (y : Fin n → ℚ) : ℚ :=
  ∑ g in groupSet X, (groupSize X g : ℚ) * (groupMean X y g - grandMeanObs y) ^ 2

/-- Groups degrees of freedom. -/
def dfGroups {n : ℕ} (X : Fin n → ℤ) : ℤ := ((groupSet X).card : ℤ) - 1

/-- Error degrees of freedom. -/
def dfError {n : ℕ} (X : Fin n → ℤ) : ℤ := ((n : ℤ) - 1) - dfGroups X

/-- Error mean square, computed before the zero-variance overwrite exactly as in
the source. -/
def msError {n : ℕ} (X : Fin n → ℤ) (y : Fin n → ℚ) : ℚ :=
  (ssTotal y - ssGroups X y) / ((dfError X : ℤ) : ℚ)

/-- Full-model omega-squared explained-variance formula from neural_info.py. -/
def omega_squared (ssg sst mse : ℚ) (dfg : ℤ) : ℚ :=
  (ssg - (dfg : ℚ) * mse) / (sst + mse)

/-- Eta-squared (R-squared) explained-variance formula from neural_info.py. -/
def eta_squared (ssg sst : ℚ) : ℚ := ssg / sst

/-- Embedding of the anova1 explained-variance computation for one data series:
SS_total is replaced by 1 when it is zero to avoid the division warning, the
explained variance is computed with the omega-squared or eta-squared formula,
and undefined (zero-variance) entries are overwritten with 0, exactly as in
neural_info.anova1. -/
def anova1 {n : ℕ} (X : Fin n → ℤ) (y : Fin n → ℚ) (om asPct : Bool) : ℚ :=
  let sst := ssTotal y
  let sst1 := if sst = 0 then 1 else sst
  let ev := if om then omega_squared (ssGroups X y) sst1 (msError X y) (dfGroups X)
            else eta_squared (ssGroups X y) sst1
  let ev2 := if sst = 0 then 0 else ev
  if asPct then 100 * ev2 else ev2

/-! ### Synchrony statistic engine

The module sync.py is not among the available sources; the engine is modelled
from the specification, section 4.3, at the granularity of one output cell:
the inputs are the per-trial (taper-averaged) complex spectral values of the
two signals at a fixed frequency, time and free-axis index. -/

noncomputable section

open scoped Classical

/-- Synchrony methods supported by the engine. -/
inductive SyncMethod
  | coherence
  | plv
  | ppc

/-- Modelled from the spec: wrap of an angle into the interval (-pi, pi],
realized as the argument of the unit complex number at that angle. -/
def wrapAngle (t : ℝ) : ℝ := (Complex.exp ((t : ℂ) * Complex.I)).arg

/-- Modelled from the spec: per-trial phase difference
arg(z1) - arg(z2), wrapped to (-pi, pi]. -/
def phaseDiff (z1 z2 : ℂ) : ℝ := wrapAngle (z1.arg - z2.arg)

/-- Modelled from the spec: circular mean vector (1/N) sum over trials of
exp(i dphi_k). -/
def meanPhaseVector {N : ℕ} (z1 z2 : Fin N → ℂ) : ℂ :=
  (N : ℂ)⁻¹ * ∑ k, Complex.exp ((phaseDiff (z1 k) (z2 k) : ℂ) * Complex.I)

/-- Modelled from the spec: phase-locking value, magnitude of the circular
mean vector. -/
def plvStat {N : ℕ} (z1 z2 : Fin N → ℂ) : ℝ := Complex.abs (meanPhaseVector z1 z2)

/-- Modelled from the spec: coherence, ratio of the magnitude of the mean
cross-spectrum to the geometric mean of the mean power spectra. -/
def cohStat {N : ℕ} (z1 z2 : Fin N → ℂ) : ℝ :=
  Complex.abs ((N : ℂ)⁻¹ * ∑ k, z1 k * (starRingEnd ℂ) (z2 k)) /
    Real.sqrt (((N : ℝ)⁻¹ * ∑ k, Complex.abs (z1 k) ^ 2) *
               ((N : ℝ)⁻¹ * ∑ k, Complex.abs (z2 k) ^ 2))

/-- Modelled from the spec: pairwise phase consistency, the bias-corrected
transform (N PLV^2 - 1) / (N - 1) of the phase-locking value. -/
def ppcStat {N : ℕ} (z1 z2 : Fin N → ℂ) : ℝ :=
  ((N : ℝ) * plvStat z1 z2 ^ 2 - 1) / ((N : ℝ) - 1)

/-- Modelled from the spec: circular mean phase difference, the argument of the
circular mean vector; one formula shared by all three methods. -/
def dphiStat {N : ℕ} (z1 z2 : Fin N → ℂ) : ℝ := (meanPhaseVector z1 z2).arg

/-- Modelled from the spec: a degenerate cell has no contributing trials, or
all spectral values zero (producing 0/0 in the statistics). -/
def degenerate {N : ℕ} (z1 z2 : Fin N → ℂ) : Prop :=
  N = 0 ∨ ∀ k, z1 k = 0 ∧ z2 k = 0

/-- Synchrony magnitude for the selected method. -/
def methodStat {N : ℕ} (m : SyncMethod) (z1 z2 : Fin N → ℂ) : ℝ :=
  match m with
  | .coherence => cohStat z1 z2
  | .plv => plvStat z1 z2
  | .ppc => ppcStat z1 z2

/-- Modelled from the spec: one cell of the synchrony engine output,
(sync, dphi); degenerate cells are forced to (0, 0) instead of propagating
an arithmetic-error value. -/
def computeCell {N : ℕ} (m : SyncMethod) (z1 z2 : Fin N → ℂ) : ℝ × ℝ :=
  if degenerate z1 z2 then (0, 0)
  else (methodStat m z1 z2, dphiStat z1 z2)

end

/-! ### Spike-field windowing layer

Modelled from the specification, section 4.4, at the granularity of one
(frequency, window-center) output cell for the PLV/PPC path: spike-conditioned
phase samples are pooled across trials within the analysis window. -/

noncomputable section

open scoped Classical

/-- Spike-field methods that pool spike-conditioned samples. -/
inductive SFMethod
  | plv
  | ppc

/-- Modelled from the spec: the pooled sample set for a window center `c` and
half-width `hw` (in samples): every (trial, time) pair at which a spike
occurred within the window. -/
def windowSamples {nT nt : ℕ} (spikes : Fin nT → Fin nt → Bool) (c hw : ℕ) :
    Finset (Fin nT × Fin nt) :=
  Finset.univ.filter
    (fun p => spikes p.1 p.2 = true ∧ c ≤ (p.2 : ℕ) + hw ∧ (p.2 : ℕ) ≤ c + hw)

/-- Modelled from the spec: the effective sample count n(t) of a window cell. -/
def spikeCount {nT nt : ℕ} (spikes : Fin nT → Fin nt → Bool) (c hw : ℕ) : ℕ :=
  (windowSamples spikes c hw).card

/-- Modelled from the spec: circular mean vector over the pooled
spike-conditioned field phases of one cell. -/
def pooledMeanVector {nT nt : ℕ} (spikes : Fin nT → Fin nt → Bool)
    (phase : Fin nT → Fin nt → ℝ) (c hw : ℕ) : ℂ :=
  (spikeCount spikes c hw : ℂ)⁻¹ *
    ∑ p in windowSamples spikes c hw, Complex.exp ((phase p.1 p.2 : ℂ) * Complex.I)

/-- Modelled from the spec: pooled phase-locking value of one cell. -/
def plvPooled {nT nt : ℕ} (spikes : Fin nT → Fin nt → Bool)
    (phase : Fin nT → Fin nt → ℝ) (c hw : ℕ) : ℝ :=
  Complex.abs (pooledMeanVector spikes phase c hw)

/-- Modelled from the spec: pooled pairwise phase consistency of one cell,
bias-corrected with the pooled sample count. -/
def ppcPooled {nT nt : ℕ} (spikes : Fin nT → Fin nt → Bool)
    (phase : Fin nT → Fin nt → ℝ) (c hw : ℕ) : ℝ :=
  ((spikeCount spikes c hw : ℝ) * plvPooled spikes phase c hw ^ 2 - 1) /
    ((spikeCount spikes c hw : ℝ) - 1)

/-- Modelled from the spec: pooled circular mean phase of one cell. -/
def phiPooled {nT nt : ℕ} (spikes : Fin nT → Fin nt → Bool)
    (phase : Fin nT → Fin nt → ℝ) (c hw : ℕ) : ℝ :=
  (pooledMeanVector spikes phase c hw).arg

/-- Pooled synchrony magnitude for the selected spike-field method. -/
def sfStat {nT nt : ℕ} (m : SFMethod) (spikes : Fin nT → Fin nt → Bool)
    (phase : Fin nT → Fin nt → ℝ) (c hw : ℕ) : ℝ :=
  match m with
  | .plv => plvPooled spikes phase c hw
  | .ppc => ppcPooled spikes phase c hw

/-- Modelled from the spec: one spike-field coupling output cell
(n, sync, phi); a cell with zero pooled spikes is marked undefined, with the
NaN outputs of the source represented as `none`. -/
def spike_field_cell {nT nt : ℕ} (m : SFMethod) (spikes : Fin nT → Fin nt → Bool)
    (phase : Fin nT → Fin nt → ℝ) (c hw : ℕ) : ℕ × Option ℝ × Option ℝ :=
  if spikeCount spikes c hw = 0 then (0, none, none)
  else (spikeCount spikes c hw,
        some (sfStat m spikes phase c hw),
        some (phiPooled spikes phase c hw))

/-! ### Validation and dispatch layer: keyword rejection

Modelled from the specification, sections 6 and 7: each entry point has a
recognized configuration set (its own keywords plus those consumed by the
configured spectral provider) and rejects any other keyword with a
configuration error before computing anything. -/

/-- Spectral decomposition backends. -/
inductive SpecMethod
  | wavelet
  | multitaper
  | bandfilter

/-- Modelled from the spec: keywords consumed by the spectral provider of each
backend. -/
def spectralProviderKeys : SpecMethod → List String
  | .wavelet => ["freqs"]
  | .multitaper => ["time_width", "spacing", "freq_width", "keep_tapers"]
  | .bandfilter => ["bands"]

/-- Modelled from the spec: recognized configuration set of synchrony. -/
def synchronyRecognizedKeys (sm : SpecMethod) : List String :=
  ["axis", "method", "spec_method", "return_phase", "time_axis", "taper_axis",
   "smp_rate", "spec_type"] ++ spectralProviderKeys sm

/-- Modelled from the spec: recognized configuration set of
spike_field_coupling. -/
def spikeFieldRecognizedKeys (sm : SpecMethod) : List String :=
  ["axis", "time_axis", "method", "spec_method", "return_phase", "window_width",
   "window_centers", "smp_rate", "taper_axis", "timepts", "width", "spec_type"] ++
    spectralProviderKeys sm

/-- Modelled from the spec: keyword validation, run before any computation;
any keyword outside the recognized set is a configuration error. -/
def validateKwargs (recognized ks : List String) : Except String Unit :=
  if ks.all (fun k => decide (k ∈ recognized)) then Except.ok ()
  else Except.error "unrecognized keyword argument"

/-- Modelled from the spec: the synchrony entry point, reduced to keyword
validation followed by the engine computation of one cell. -/
def synchronyCallKw {N : ℕ} (m : SyncMethod) (sm : SpecMethod) (ks : List String)
    (z1 z2 : Fin N → ℂ) : Except String (ℝ × ℝ) :=
  match validateKwargs (synchronyRecognizedKeys sm) ks with
  | .error e => .error e
  | .ok _ => .ok (computeCell m z1 z2)

/-- Modelled from the spec: the spike_field_coupling entry point, reduced to
keyword validation followed by the windowing-layer computation of one cell. -/
def spikeFieldCallKw {nT nt : ℕ} (m : SFMethod) (sm : SpecMethod) (ks : List String)
    (spikes : Fin nT → Fin nt → Bool) (phase : Fin nT → Fin nt → ℝ) (c hw : ℕ) :
    Except String (ℕ × Option ℝ × Option ℝ) :=
  match validateKwargs (spikeFieldRecognizedKeys sm) ks with
  | .error e => .error e
  | .ok _ => .ok (spike_field_cell m spikes phase c hw)

/-! ### Read-only input contract

Modelled from the specification, section 5: the input tensors are the only
shared resource and are read-only for the duration of a call.  A call is
modelled as an explicit state transformer whose state holds the input arrays;
outputs are produced into fresh storage and the post-call state carries the
input arrays through unchanged. -/

/-- State of a synchrony call: the two input spectral arrays of one cell. -/
structure SyncCallState (N : ℕ) where
  data1 : Fin N → ℂ
  data2 : Fin N → ℂ

/-- Modelled from the spec: a synchrony call reads the inputs, computes the
outputs (gating the phase output on return_phase), and returns with the input
arrays untouched. -/
def synchronyRun {N : ℕ} (st : SyncCallState N) (m : SyncMethod) (sm : SpecMethod)
    (returnPhase : Bool) : (ℝ × Option ℝ) × SyncCallState N :=
  (((computeCell m st.data1 st.data2).1,
    if returnPhase then some (computeCell m st.data1 st.data2).2 else none),
   { data1 := st.data1, data2 := st.data2 })

/-- State of a spike_field_coupling call: the spike train and field arrays. -/
structure SFCallState (nT nt : ℕ) where
  spikes : Fin nT → Fin nt → Bool
  field : Fin nT → Fin nt → ℝ

/-- Modelled from the spec: a spike_field_coupling call reads the inputs,
computes the outputs, and returns with the input arrays untouched. -/
def spikeFieldRun {nT nt : ℕ} (st : SFCallState nT nt) (m : SFMethod)
    (sm : SpecMethod) (returnPhase : Bool) (c hw : ℕ) :
    (ℕ × Option ℝ × Option ℝ) × SFCallState nT nt :=
  (((spike_field_cell m st.spikes st.field c hw).1,
    (spike_field_cell m st.spikes st.field c hw).2.1,
    if returnPhase then (spike_field_cell m st.spikes st.field c hw).2.2 else none),
   { spikes := st.spikes, field := st.field })

/-- Concrete engine input showing that PPC can be negative: two trials with
opposite relative phases. -/
def ppcNegEx1 : Fin 2 → ℂ := fun k => if k = 0 then 1 else -1

/-- Concrete engine input showing that PPC can be negative: reference signal. -/
def ppcNegEx2 : Fin 2 → ℂ := fun _ => 1

/-- Concrete engine input on the negative real axis, for the phase-swap
boundary counterexample. -/
def swapCex1 : Fin 1 → ℂ := fun _ => -1

/-- Concrete engine input on the positive real axis, for the phase-swap
boundary counterexample. -/
def swapCex2 : Fin 1 → ℂ := fun _ => 1

end

/-! ### Helper lemmas about the engine model -/

theorem exp_wrapAngle (t : ℝ) :
    Complex.exp ((wrapAngle t : ℂ) * Complex.I) = Complex.exp ((t : ℂ) * Complex.I) := by
  unfold wrapAngle
  have hw : Complex.abs (Complex.exp ((t : ℂ) * Complex.I)) = 1 :=
    Complex.abs_exp_ofReal_mul_I t
  have h := Complex.abs_mul_exp_arg_mul_I (Complex.exp ((t : ℂ) * Complex.I))
  rw [hw] at h
  simpa using h

theorem exp_phaseDiff_swap (z1 z2 : ℂ) :
    Complex.exp ((phaseDiff z2 z1 : ℂ) * Complex.I) =
      (starRingEnd ℂ) (Complex.exp ((phaseDiff z1 z2 : ℂ) * Complex.I)) := by
  rw [phaseDiff, phaseDiff, exp_wrapAngle, exp_wrapAngle, ← Complex.exp_conj]
  congr 1
  rw [map_mul, Complex.conj_ofReal, Complex.conj_I]
  push_cast
  ring

theorem meanPhaseVector_swap {N : ℕ} (z1 z2 : Fin N → ℂ) :
    meanPhaseVector z2 z1 = (starRingEnd ℂ) (meanPhaseVector z1 z2) := by
  unfold meanPhaseVector
  rw [map_mul (starRingEnd ℂ), map_inv₀ (starRingEnd ℂ), map_natCast (starRingEnd ℂ),
      map_sum (starRingEnd ℂ)]
  congr 1
  exact Finset.sum_congr rfl fun k _ => exp_phaseDiff_swap (z1 k) (z2 k)

theorem degenerate_swap {N : ℕ} (z1 z2 : Fin N → ℂ) :
    degenerate z2 z1 ↔ degenerate z1 z2 := by
  unfold degenerate
  constructor <;> rintro (h | h)
  · exact Or.inl h
  · exact Or.inr fun k => ⟨(h k).2, (h k).1⟩
  · exact Or.inl h
  · exact Or.inr fun k => ⟨(h k).2, (h k).1⟩

theorem plvStat_swap {N : ℕ} (z1 z2 : Fin N → ℂ) : plvStat z2 z1 = plvStat z1 z2 := by
  unfold plvStat
  rw [meanPhaseVector_swap, Complex.abs_conj]

theorem dphiStat_swap {N : ℕ} (z1 z2 : Fin N → ℂ) :
    dphiStat z2 z1 = if dphiStat z1 z2 = Real.pi then Real.pi else -dphiStat z1 z2 := by
  unfold dphiStat
  rw [meanPhaseVector_swap, Complex.arg_conj]

theorem cohStat_swap {N : ℕ} (z1 z2 : Fin N → ℂ) : cohStat z2 z1 = cohStat z1 z2 := by
  unfold cohStat
  have hnum : ∑ k, z2 k * (starRingEnd ℂ) (z1 k) =
      (starRingEnd ℂ) (∑ k, z1 k * (starRingEnd ℂ) (z2 k)) := by
    rw [map_sum]
    refine Finset.sum_congr rfl fun k _ => ?_
    rw [map_mul, Complex.conj_conj]
    ring
  rw [hnum]
  congr 1
  · rw [map_mul, map_mul, Complex.abs_conj]
  · congr 1
    exact mul_comm _ _

theorem ppcStat_swap {N : ℕ} (z1 z2 : Fin N → ℂ) : ppcStat z2 z1 = ppcStat z1 z2 := by
  unfold ppcStat
  rw [plvStat_swap]

theorem methodStat_swap {N : ℕ} (m : SyncMethod) (z1 z2 : Fin N → ℂ) :
    methodStat m z2 z1 = methodStat m z1 z2 := by
  cases m
  · exact cohStat_swap z1 z2
  · exact plvStat_swap z1 z2
  · exact ppcStat_swap z1 z2

theorem plvStat_nonneg {N : ℕ} (z1 z2 : Fin N → ℂ) : 0 ≤ plvStat z1 z2 :=
  Complex.abs.nonneg _

theorem plvStat_le_one {N : ℕ} (hN : 0 < N) (z1 z2 : Fin N → ℂ) : plvStat z1 z2 ≤ 1 := by
  unfold plvStat meanPhaseVector
  rw [map_mul, map_inv₀, Complex.abs_natCast]
  have hNR : (0 : ℝ) < (N : ℝ) := by exact_mod_cast hN
  have hsum :
      Complex.abs (∑ k, Complex.exp ((phaseDiff (z1 k) (z2 k) : ℂ) * Complex.I)) ≤ (N : ℝ) := by
    calc Complex.abs (∑ k, Complex.exp ((phaseDiff (z1 k) (z2 k) : ℂ) * Complex.I))
        ≤ ∑ k, Complex.abs (Complex.exp ((phaseDiff (z1 k) (z2 k) : ℂ) * Complex.I)) :=
          Complex.abs.sum_le _ _
      _ = ∑ _k : Fin N, (1 : ℝ) :=
          Finset.sum_congr rfl fun k _ => Complex.abs_exp_ofReal_mul_I _
      _ = (N : ℝ) := by simp
  calc ((N : ℝ))⁻¹ * Complex.abs (∑ k, Complex.exp ((phaseDiff (z1 k) (z2 k) : ℂ) * Complex.I))
      ≤ (N : ℝ)⁻¹ * (N : ℝ) :=
        mul_le_mul_of_nonneg_left hsum (by positivity)
    _ = 1 := by field_simp

theorem ndg_swapCex : ¬ degenerate swapCex1 swapCex2 := by
  intro h
  rcases h with h | h
  · exact one_ne_zero h
  · have h0 := (h 0).1
    unfold swapCex1 at h0
    norm_num at h0

theorem meanPhaseVector_swapCex : meanPhaseVector swapCex1 swapCex2 = -1 := by
  unfold meanPhaseVector swapCex1 swapCex2 phaseDiff
  rw [Fin.sum_univ_one, exp_wrapAngle, Complex.arg_neg_one, Complex.arg_one, sub_zero,
      Complex.exp_pi_mul_I]
  norm_num

theorem dphi_swapCex_forward : (computeCell SyncMethod.plv swapCex1 swapCex2).2 = Real.pi := by
  unfold computeCell
  rw [if_neg ndg_swapCex]
  show dphiStat swapCex1 swapCex2 = Real.pi
  unfold dphiStat
  rw [meanPhaseVector_swapCex, Complex.arg_neg_one]

theorem dphi_swapCex_backward : (computeCell SyncMethod.plv swapCex2 swapCex1).2 = Real.pi := by
  unfold computeCell
  rw [if_neg (fun hh => ndg_swapCex ((degenerate_swap swapCex1 swapCex2).mp hh))]
  show dphiStat swapCex2 swapCex1 = Real.pi
  unfold dphiStat
  rw [meanPhaseVector_swap, meanPhaseVector_swapCex]
  simp only [map_neg, map_one, Complex.arg_neg_one]

theorem ndg_ppcNeg : ¬ degenerate ppcNegEx1 ppcNegEx2 := by
  intro h
  rcases h with h | h
  · exact two_ne_zero h
  · have h0 := (h 0).1
    unfold ppcNegEx1 at h0
    norm_num at h0

theorem meanPhaseVector_ppcNeg : meanPhaseVector ppcNegEx1 ppcNegEx2 = 0 := by
  unfold meanPhaseVector ppcNegEx1 ppcNegEx2 phaseDiff
  rw [Fin.sum_univ_two]
  norm_num
  rw [exp_wrapAngle, exp_wrapAngle]
  simp [Complex.exp_pi_mul_I]

theorem plvStat_ppcNeg : plvStat ppcNegEx1 ppcNegEx2 = 0 := by
  unfold plvStat
  rw [meanPhaseVector_ppcNeg]
  exact map_zero Complex.abs

/-! ### Claim theorems -/

/-- C1: for every call, with any method, spec_method and return_phase setting,
the post-call state carries the input arrays of synchrony and of
spike_field_coupling unchanged: no computation mutates its input tensors. -/
theorem inputs_not_mutated :
    (∀ (N : ℕ) (st : SyncCallState N) (m : SyncMethod) (sm : SpecMethod) (rp : Bool),
      (synchronyRun st m sm rp).2.data1 = st.data1 ∧
      (synchronyRun st m sm rp).2.data2 = st.data2) ∧
    (∀ (nT nt : ℕ) (st : SFCallState nT nt) (m : SFMethod) (sm : SpecMethod)
        (rp : Bool) (c hw : ℕ),
      (spikeFieldRun st m sm rp c hw).2.spikes = st.spikes ∧
      (spikeFieldRun st m sm rp c hw).2.field = st.field) :=
  ⟨fun _ _ _ _ _ => ⟨rfl, rfl⟩, fun _ _ _ _ _ _ _ _ => ⟨rfl, rfl⟩⟩

/-- C2: on a non-degenerate cell the phase output of the engine is the one
circular-mean formula arg((1/N) sum_k exp(i dphi_k)) for every method, and the
phase output is identical across the three methods on identical inputs. -/
theorem dphi_single_formula {N : ℕ} (z1 z2 : Fin N → ℂ) (m m2 : SyncMethod) :
    (¬ degenerate z1 z2 →
      (computeCell m z1 z2).2 =
        ((N : ℂ)⁻¹ * ∑ k, Complex.exp ((phaseDiff (z1 k) (z2 k) : ℂ) * Complex.I)).arg) ∧
    (computeCell m z1 z2).2 = (computeCell m2 z1 z2).2 := by
  constructor
  · intro hd
    unfold computeCell
    rw [if_neg hd]
    rfl
  · unfold computeCell
    by_cases hd : degenerate z1 z2
    · rw [if_pos hd, if_pos hd]
    · rw [if_neg hd, if_neg hd]

/-- Witness for C2 at a concrete non-degenerate input. -/
theorem dphi_single_formula_witness :
    (¬ degenerate (fun _ : Fin 1 => (1 : ℂ)) (fun _ : Fin 1 => (1 : ℂ))) ∧
    (computeCell SyncMethod.coherence (fun _ : Fin 1 => (1 : ℂ)) (fun _ : Fin 1 => (1 : ℂ))).2 =
      (((1 : ℕ) : ℂ)⁻¹ *
        ∑ k : Fin 1, Complex.exp ((phaseDiff (1 : ℂ) (1 : ℂ) : ℂ) * Complex.I)).arg := by
  have hnd : ¬ degenerate (fun _ : Fin 1 => (1 : ℂ)) (fun _ : Fin 1 => (1 : ℂ)) := by
    intro h
    rcases h with h | h
    · exact one_ne_zero h
    · exact one_ne_zero (h 0).1
  exact ⟨hnd,
    (dphi_single_formula (fun _ : Fin 1 => (1 : ℂ)) (fun _ : Fin 1 => (1 : ℂ))
      SyncMethod.coherence SyncMethod.plv).1 hnd⟩

/-- C3: degenerate field-field cells (no trials, or all spectral values zero)
are set to sync = 0 and dphi = 0 and never an arithmetic-error value,
mirroring the anova1 zero-variance convention that forces exp_var = 0 whenever
SS_total = 0. -/
theorem degenerate_cells_zero :
    (∀ (N : ℕ) (m : SyncMethod) (z1 z2 : Fin N → ℂ),
      degenerate z1 z2 → computeCell m z1 z2 = (0, 0)) ∧
    (∀ (n : ℕ) (X : Fin n → ℤ) (y : Fin n → ℚ) (om asPct : Bool),
      ssTotal y = 0 → anova1 X y om asPct = 0) := by
  constructor
  · intro N m z1 z2 hd
    unfold computeCell
    rw [if_pos hd]
  · intro n X y om asPct h
    unfold anova1
    simp only [h, if_pos rfl]
    cases asPct <;> simp

/-- Witness for C3 at a concrete zero-trial engine cell and a concrete
zero-variance anova1 input. -/
theorem degenerate_cells_zero_witness :
    degenerate (fun _ : Fin 0 => (0 : ℂ)) (fun _ : Fin 0 => (0 : ℂ)) ∧
    computeCell SyncMethod.plv (fun _ : Fin 0 => (0 : ℂ)) (fun _ : Fin 0 => (0 : ℂ)) = (0, 0) ∧
    ssTotal (fun _ : Fin 2 => (0 : ℚ)) = 0 ∧
    anova1 (fun _ : Fin 2 => (0 : ℤ)) (fun _ : Fin 2 => (0 : ℚ)) true true = 0 := by
  have hss : ssTotal (fun _ : Fin 2 => (0 : ℚ)) = 0 := by
    simp [ssTotal, grandMeanObs]
  exact ⟨Or.inl rfl,
    degenerate_cells_zero.1 0 SyncMethod.plv _ _ (Or.inl rfl),
    hss,
    degenerate_cells_zero.2 2 (fun _ => 0) (fun _ => 0) true true hss⟩

/-- C4: a spike-field window cell whose pooled spike count is zero yields
n = 0 and undefined (NaN, modelled as none) sync and phi, never a finite
numeric value, diverging from the field-field convention that outputs 0. -/
theorem spike_field_zero_spikes {nT nt : ℕ} (m : SFMethod)
    (spikes : Fin nT → Fin nt → Bool) (phase : Fin nT → Fin nt → ℝ) (c hw : ℕ)
    (h : spikeCount spikes c hw = 0) :
    spike_field_cell m spikes phase c hw = (0, none, none) ∧
    (∀ x : ℝ, (spike_field_cell m spikes phase c hw).2.1 ≠ some x) ∧
    (∀ x : ℝ, (spike_field_cell m spikes phase c hw).2.2 ≠ some x) ∧
    (computeCell SyncMethod.plv (fun _ : Fin 0 => (0 : ℂ)) (fun _ : Fin 0 => (0 : ℂ))).1 = 0 := by
  have hc : spike_field_cell m spikes phase c hw = (0, none, none) := by
    unfold spike_field_cell
    rw [if_pos h]
  refine ⟨hc, ?_, ?_, ?_⟩
  · intro x
    rw [hc]
    simp
  · intro x
    rw [hc]
    simp
  · have hdeg : degenerate (fun _ : Fin 0 => (0 : ℂ)) (fun _ : Fin 0 => (0 : ℂ)) :=
      Or.inl rfl
    unfold computeCell
    rw [if_pos hdeg]

/-- Witness for C4 at a concrete spikeless input. -/
theorem spike_field_zero_spikes_witness :
    spikeCount (fun _ : Fin 1 => fun _ : Fin 1 => false) 0 0 = 0 ∧
    spike_field_cell SFMethod.plv (fun _ : Fin 1 => fun _ : Fin 1 => false)
      (fun _ _ => 0) 0 0 = (0, none, none) := by
  have h0 : spikeCount (fun _ : Fin 1 => fun _ : Fin 1 => false) 0 0 = 0 := by decide
  exact ⟨h0,
    (spike_field_zero_spikes SFMethod.plv (fun _ => fun _ => false) (fun _ _ => 0) 0 0 h0).1⟩

/-- C5 counterexample: at a cell whose mean phase difference is exactly pi
(the closed boundary of the (-pi, pi] range), swapping the two inputs does not
negate dphi: both orders return pi, and pi differs from -pi. -/
theorem swap_negates_dphi_counterexample :
    ¬ ((computeCell SyncMethod.plv swapCex2 swapCex1).2 =
        -(computeCell SyncMethod.plv swapCex1 swapCex2).2) := by
  rw [dphi_swapCex_forward, dphi_swapCex_backward]
  intro h
  have hpi := Real.pi_pos
  linarith

/-- C5 amended: swapping the two input signals leaves the synchrony magnitude
unchanged for every method, and negates the phase output as an angle modulo
2 pi: dphi of the swapped call equals -dphi except at cells where dphi = pi,
where it remains pi (the boundary of the (-pi, pi] range). -/
theorem swap_antisymmetry {N : ℕ} (z1 z2 : Fin N → ℂ) (m : SyncMethod) :
    (computeCell m z2 z1).1 = (computeCell m z1 z2).1 ∧
    (computeCell m z2 z1).2 =
      (if (computeCell m z1 z2).2 = Real.pi then Real.pi
       else -(computeCell m z1 z2).2) := by
  by_cases hd : degenerate z1 z2
  · have hd2 : degenerate z2 z1 := (degenerate_swap z1 z2).mpr hd
    unfold computeCell
    rw [if_pos hd, if_pos hd2]
    refine ⟨rfl, ?_⟩
    show (0 : ℝ) = if (0 : ℝ) = Real.pi then Real.pi else -(0 : ℝ)
    rw [if_neg (Ne.symm Real.pi_ne_zero), neg_zero]
  · have hd2 : ¬ degenerate z2 z1 := fun hh => hd ((degenerate_swap z1 z2).mp hh)
    unfold computeCell
    rw [if_neg hd, if_neg hd2]
    exact ⟨methodStat_swap m z1 z2, dphiStat_swap z1 z2⟩

/-- C7: for a non-degenerate cell with at least two trials, the PPC output is
exactly (N PLV^2 - 1) / (N - 1) in terms of the PLV output on the same inputs,
its range is [-1, 1], and at a concrete two-trial input with opposite phases
it is negative (equal to -1), which the engine does not treat as an error. -/
theorem ppc_formula_and_range {N : ℕ} (z1 z2 : Fin N → ℂ) (hN : 2 ≤ N)
    (hd : ¬ degenerate z1 z2) :
    (computeCell SyncMethod.ppc z1 z2).1 =
      ((N : ℝ) * (computeCell SyncMethod.plv z1 z2).1 ^ 2 - 1) / ((N : ℝ) - 1) ∧
    -1 ≤ (computeCell SyncMethod.ppc z1 z2).1 ∧
    (computeCell SyncMethod.ppc z1 z2).1 ≤ 1 ∧
    (computeCell SyncMethod.ppc ppcNegEx1 ppcNegEx2).1 < 0 := by
  have hcast : (2 : ℝ) ≤ (N : ℝ) := by exact_mod_cast hN
  have hden : (0 : ℝ) < (N : ℝ) - 1 := by linarith
  have hNpos : 0 < N := lt_of_lt_of_le (by norm_num) hN
  have hp0 : 0 ≤ plvStat z1 z2 := plvStat_nonneg z1 z2
  have hp1 : plvStat z1 z2 ≤ 1 := plvStat_le_one hNpos z1 z2
  have hcell : ∀ mm : SyncMethod,
      computeCell mm z1 z2 = (methodStat mm z1 z2, dphiStat z1 z2) := by
    intro mm
    unfold computeCell
    rw [if_neg hd]
  have hcellNeg : computeCell SyncMethod.ppc ppcNegEx1 ppcNegEx2 =
      (methodStat SyncMethod.ppc ppcNegEx1 ppcNegEx2, dphiStat ppcNegEx1 ppcNegEx2) := by
    unfold computeCell
    rw [if_neg ndg_ppcNeg]
  rw [hcell, hcell, hcellNeg]
  refine ⟨rfl, ?_, ?_, ?_⟩
  · show -1 ≤ ((N : ℝ) * plvStat z1 z2 ^ 2 - 1) / ((N : ℝ) - 1)
    rw [le_div_iff₀ hden]
    nlinarith
  · show ((N : ℝ) * plvStat z1 z2 ^ 2 - 1) / ((N : ℝ) - 1) ≤ 1
    rw [div_le_one hden]
    have hsq : plvStat z1 z2 ^ 2 ≤ 1 := by nlinarith
    have hmul : (N : ℝ) * plvStat z1 z2 ^ 2 ≤ (N : ℝ) * 1 :=
      mul_le_mul_of_nonneg_left hsq (by linarith)
    linarith
  · show (((2 : ℕ) : ℝ) * plvStat ppcNegEx1 ppcNegEx2 ^ 2 - 1) / (((2 : ℕ) : ℝ) - 1) < 0
    rw [plvStat_ppcNeg]
    norm_num

/-- Witness for C7 at the concrete two-trial input with opposite phases. -/
theorem ppc_formula_and_range_witness :
    2 ≤ 2 ∧ ¬ degenerate ppcNegEx1 ppcNegEx2 ∧
    (computeCell SyncMethod.ppc ppcNegEx1 ppcNegEx2).1 < 0 :=
  ⟨le_refl 2, ndg_ppcNeg,
   (ppc_formula_and_range ppcNegEx1 ppcNegEx2 (le_refl 2) ndg_ppcNeg).2.2.2⟩

/-- C8: a keyword outside the recognized configuration set makes both entry
points return a configuration error before any computation, for every backend
and every remaining configuration. -/
theorem unknown_kwarg_rejected (sm : SpecMethod) (ks : List String) (kw : String)
    (hmem : kw ∈ ks) :
    (kw ∉ synchronyRecognizedKeys sm →
      ∀ (N : ℕ) (m : SyncMethod) (z1 z2 : Fin N → ℂ),
        synchronyCallKw m sm ks z1 z2 =
          Except.error "unrecognized keyword argument") ∧
    (kw ∉ spikeFieldRecognizedKeys sm →
      ∀ (nT nt : ℕ) (m : SFMethod) (spikes : Fin nT → Fin nt → Bool)
        (phase : Fin nT → Fin nt → ℝ) (c hw : ℕ),
        spikeFieldCallKw m sm ks spikes phase c hw =
          Except.error "unrecognized keyword argument") := by
  have hval : ∀ recognized : List String, kw ∉ recognized →
      validateKwargs recognized ks = Except.error "unrecognized keyword argument" := by
    intro recognized hnr
    have hall : ks.all (fun k => decide (k ∈ recognized)) = false := by
      cases hb : ks.all (fun k => decide (k ∈ recognized)) with
      | false => rfl
      | true =>
        exact absurd (of_decide_eq_true (List.all_eq_true.mp hb kw hmem)) hnr
    unfold validateKwargs
    rw [hall]
    rfl
  constructor
  · intro hnr N m z1 z2
    unfold synchronyCallKw
    rw [hval _ hnr]
  · intro hnr nT nt m spikes phase c hw
    unfold spikeFieldCallKw
    rw [hval _ hnr]

/-- Witness for C8 with the concrete unrecognized keyword foo. -/
theorem unknown_kwarg_rejected_witness :
    ("foo" : String) ∈ (["foo"] : List String) ∧
    ("foo" : String) ∉ synchronyRecognizedKeys SpecMethod.wavelet ∧
    ("foo" : String) ∉ spikeFieldRecognizedKeys SpecMethod.wavelet ∧
    synchronyCallKw SyncMethod.plv SpecMethod.wavelet ["foo"]
      (fun _ : Fin 1 => (1 : ℂ)) (fun _ : Fin 1 => (1 : ℂ)) =
      Except.error "unrecognized keyword argument" ∧
    spikeFieldCallKw SFMethod.plv SpecMethod.wavelet ["foo"]
      (fun _ : Fin 1 => fun _ : Fin 1 => false) (fun _ _ => 0) 0 0 =
      Except.error "unrecognized keyword argument" :=
  ⟨by decide, by decide, by decide,
   (unknown_kwarg_rejected SpecMethod.wavelet ["foo"] "foo" (by decide)).1 (by decide)
     1 SyncMethod.plv _ _,
   (unknown_kwarg_rejected SpecMethod.wavelet ["foo"] "foo" (by decide)).2 (by decide)
     1 1 SFMethod.plv _ _ 0 0⟩


theorem ofF_toF : ∀ (s : List ℕ) (m : MIdx s), ofF s (toF s m) = m
  | [], _ => rfl
  | n :: s, ⟨i, rest⟩ => by
    have hn : 0 < n := i.pos
    simp only [toF, ofF]
    refine Prod.ext ?_ ?_
    · apply Fin.ext
      show (i.val + n * (toF s rest).val) % n = i.val
      rw [Nat.add_mul_mod_self_left, Nat.mod_eq_of_lt i.isLt]
    · refine Eq.trans (congrArg (ofF s) (Fin.ext ?_)) (ofF_toF s rest)
      show (i.val + n * (toF s rest).val) / n = (toF s rest).val
      rw [Nat.add_mul_div_left _ _ hn, Nat.div_eq_of_lt i.isLt, Nat.zero_add]


theorem toF_ofF : ∀ (s : List ℕ) (f : Fin s.prod), toF s (ofF s f) = f
  | [], f => by
    apply Fin.ext
    have h : f.val < ([] : List ℕ).prod := f.isLt
    simp only [List.prod_nil] at h
    show 0 = f.val
    omega
  | n :: s, f => by
    apply Fin.ext
    simp only [toF, ofF]
    rw [toF_ofF]
    exact Nat.mod_add_div f.val n


theorem insertMIdx_extractMIdx : ∀ (s : List ℕ) (a : ℕ) (h : a < s.length) (m : MIdx s),
    insertMIdx s a h (extractMIdx s a h m).1 (extractMIdx s a h m).2 = m
  | _ :: _, 0, _, _ => rfl
  | _ :: s, a + 1, h, m => by
    show (m.1, insertMIdx s a _ (extractMIdx s a _ m.2).1 (extractMIdx s a _ m.2).2) = m
    rw [insertMIdx_extractMIdx s a (Nat.lt_of_succ_lt_succ h) m.2]
    exact Prod.mk.eta

/-- Reshaping to another shape in Fortran order and back is the identity. -/
theorem reshapeF_reshapeF {α : Type} (s t : List ℕ) (h1 : t.prod = s.prod)
    (h2 : s.prod = t.prod) (x : MIdx s → α) :
    reshapeF t s h2 (reshapeF s t h1 x) = x := by
  funext m
  unfold reshapeF
  rw [toF_ofF]
  exact congrArg x (Eq.trans (congrArg (ofF s) (Fin.ext rfl)) (ofF_toF s m))

/-- C9: composing the reshaping helpers round-trips exactly: for an ndarray of
any rank and any valid observation axis, unreshape_data applied to the output
of reshape_data returns an array equal to the original in shape and in every
element; the Fortran-order flattening is lossless and its inverse restores the
original axis order. -/
theorem reshape_unreshape_roundtrip {α : Type} (s : List ℕ) (a : ℕ) (h : a < s.length)
    (y : MIdx s → α) : unreshape_data s a h (reshape_data s a h y) = y := by
  funext m
  unfold unreshape_data reshape_data moveaxisFrom0
  rw [reshapeF_reshapeF]
  show y (insertMIdx s a h (extractMIdx s a h m).1 (extractMIdx s a h m).2) = y m
  rw [insertMIdx_extractMIdx s a h m]

/-- Witness for C9 at a concrete rank-3 array and observation axis 1. -/
theorem reshape_unreshape_roundtrip_witness :
    1 < ([2, 3, 2] : List ℕ).length ∧
    unreshape_data [2, 3, 2] 1 (by decide)
      (reshape_data [2, 3, 2] 1 (by decide) (fun m => (toF [2, 3, 2] m).val)) =
      (fun m => (toF [2, 3, 2] m).val) :=
  ⟨by decide, reshape_unreshape_roundtrip [2, 3, 2] 1 (by decide) _⟩

/-- C10: the contiguity guard of _reshape_data applies the Python bitwise
complement to a bool, producing -2 or -1, both truthy, so the first branch is
taken for every input and the result never depends on whether the array is
C-contiguous: the faster c-contiguous branch is unreachable. -/
theorem reshape_guard_dead_branch {α : Type} (s : List ℕ) (a : ℕ) (h : a < s.length)
    (b : Bool) (x : MIdx s → α) :
    (pyBitNot b = -2 ∨ pyBitNot b = -1) ∧
    pyTruthy (pyBitNot b) = true ∧
    reshape_data_full s a h b x = reshape_data s a h x := by
  refine ⟨?_, ?_, ?_⟩
  · cases b
    · exact Or.inr rfl
    · exact Or.inl rfl
  · cases b <;> rfl
  · unfold reshape_data_full
    cases b <;> rfl

/-- Witness for C10 at a concrete shape, for a C-contiguous flag value. -/
theorem reshape_guard_dead_branch_witness :
    0 < ([2, 2] : List ℕ).length ∧
    (pyBitNot true = -2 ∨ pyBitNot true = -1) ∧
    pyTruthy (pyBitNot true) = true ∧
    reshape_data_full [2, 2] 0 (by decide) true (fun _ => (0 : ℕ)) =
      reshape_data [2, 2] 0 (by decide) (fun _ => (0 : ℕ)) :=
  ⟨by decide, reshape_guard_dead_branch [2, 2] 0 (by decide) true (fun _ => (0 : ℕ))⟩
